import Mathlib

set_option maxHeartbeats 4000000
set_option maxRecDepth 10000

/-!
Verification of the SYS_ATL / Exo lowering compiler (backend/LoopIR_compiler.py)
and auxiliary modules (LoopIR_pprint.py, spork/coll_algebra.py).

The development shallowly embeds the compiler's index-expression IR (`CIR`),
its simplifier and C emitter, the floor-division helper, window-struct
synthesis, the read/write/reduce delegation of statement lowering, the
fresh-name policies, the static-memory check, and the call-graph walk.

Python machine integers are modelled as `Int`; Python's `/` on integers
produces a float, which we model exactly as rational division (`Rat`);
all inputs appearing in concrete theorems are exactly representable, so
the float/rational distinction is immaterial there.  `assert False`
branches of the source (which raise at runtime) are modelled as returning
the untouched node; no theorem below depends on such a branch except
where explicitly noted.
-/

/-! ### Symbols and the CIR index-expression language -/

abbrev ExoSym := String

/-- Operator strings used by the compiler. -/
def opAdd : String := "+"

def opSub : String := "-"

def opMul : String := "*"

def opDiv : String := "/"

def opMod : String := "%"

def tildeOp : String := "~"

/-- The `CIR` index-expression IR of `LoopIR_compiler.py`.  `Read` and
`BinOp` and `USub` carry the non-negativity flag computed by
`lift_to_cir` from the range environment.  Constant values are rationals
because Python constant folding with `/` can produce floats. -/
inductive CIR where
  | Read (name : ExoSym) (is_non_neg : Bool)
  | Const (val : Rat)
  | BinOp (op : String) (lhs rhs : CIR) (is_non_neg : Bool)
  | USub (arg : CIR) (is_non_neg : Bool)
  | Stride (name : ExoSym) (dim : Nat)
deriving DecidableEq, Repr

/-- Python integer `%` (sign follows the divisor): `x - y * floor (x / y)`. -/
def pyMod (x y : Rat) : Rat := x - y * ((x / y).floor : Rat)

/-- The `operations` table of `LoopIR_compiler.py` used by constant folding.
Python `/` is true division (float-producing); modelled as rational
division.  Operators outside the table raise `KeyError` in the source;
modelled as returning `0` (never exercised by the theorems below). -/
def operations (op : String) (x y : Rat) : Rat :=
  match op with
  | "+" => x + y
  | "-" => x - y
  | "*" => x * y
  | "/" => x / y
  | "%" => pyMod x y
  | _ => 0

/-- The `BinOp` arm of `simplify_cir`, applied after both children are
simplified.  Mirrors the if-chain of the source in order.  The two
`assert False` branches of the source (left operand `Const 0` with an
operator outside `+,-,*,/`, and division by a literal zero on the right)
are modelled as returning the node unchanged. -/
def simp_binop (op : String) (lhs rhs : CIR) (nn : Bool) : CIR :=
  match lhs, rhs with
  | CIR.Const a, CIR.Const b => CIR.Const (operations op a b)
  | CIR.Const a, _ =>
    if a = 0 ∧ op = "+" then rhs
    else if a = 0 ∧ (op = "*" ∨ op = "/") then CIR.Const 0
    else if a = 1 ∧ op = "*" then rhs
    else CIR.BinOp op lhs rhs nn
  | _, CIR.Const b =>
    if b = 0 ∧ (op = "+" ∨ op = "-") then lhs
    else if b = 0 ∧ op = "*" then CIR.Const 0
    else if b = 1 ∧ (op = "*" ∨ op = "/") then lhs
    else CIR.BinOp op lhs rhs nn
  | _, _ => CIR.BinOp op lhs rhs nn

/-- The `USub` arm of `simplify_cir`, applied after the child is
simplified: cancels a double negation and fuses a constant. -/
def simp_usub (arg : CIR) (nn : Bool) : CIR :=
  match arg with
  | CIR.USub b _ => b
  | CIR.Const v => CIR.Const (-v)
  | _ => CIR.USub arg nn

/-- `simplify_cir` of `LoopIR_compiler.py`. -/
def simplify_cir : CIR → CIR
  | CIR.Read n nn => CIR.Read n nn
  | CIR.Const v => CIR.Const v
  | CIR.Stride n d => CIR.Stride n d
  | CIR.BinOp op l r nn => simp_binop op (simplify_cir l) (simplify_cir r) nn
  | CIR.USub a nn => simp_usub (simplify_cir a) nn

/-! ### C emission for CIR (`Compiler.comp_cir`) -/

/-- Operator precedences (`op_prec` in the source). -/
def op_prec (op : String) : Nat :=
  match op with
  | "or" => 10
  | "and" => 20
  | "==" => 30
  | "<" => 40
  | ">" => 40
  | "<=" => 40
  | ">=" => 40
  | "+" => 50
  | "-" => 50
  | "*" => 60
  | "/" => 60
  | "%" => 60
  | "~" => 70
  | _ => 0

def paren (s : String) : String := "(" ++ s ++ ")"

def exo_floor_div_name : String := "exo_floor_div"

/-- `Compiler._call_static_helper` restricted to two arguments (the only
arity used): formats `helper(lhs, rhs)`. -/
def call_static_helper (helper lhs rhs : String) : String :=
  helper ++ "(" ++ lhs ++ ", " ++ rhs ++ ")"

/-- The dividend test of `Compiler.comp_cir` for `/`: a `Read` or `BinOp`
whose non-negativity flag is set, or a constant strictly greater than
zero.  Note the divisor is never examined. -/
def div_lhs_native (l : CIR) : Bool :=
  match l with
  | CIR.Read _ nn => nn
  | CIR.BinOp _ _ _ nn => nn
  | CIR.Const v => decide (0 < v)
  | _ => false

def isBinOpNode : CIR → Bool
  | CIR.BinOp _ _ _ _ => true
  | _ => false

/-- `Compiler.comp_cir`: renders a CIR expression as C source.  The
division case emits native `/` or a call to the `exo_floor_div` helper
according to `div_lhs_native`. -/
def comp_cir (e : CIR) (env : ExoSym → String) (prec : Nat) : String :=
  match e with
  | CIR.Read n _ => env n
  | CIR.Const v => toString v
  | CIR.BinOp op l r _ =>
    let local_prec := op_prec op
    let lhs := comp_cir l env local_prec
    let rhs0 := comp_cir r env local_prec
    let rhs := if isBinOpNode r && (op == "-" || op == "/") then paren rhs0 else rhs0
    if op = "/" then
      if div_lhs_native l then paren (lhs ++ " / " ++ rhs)
      else call_static_helper exo_floor_div_name lhs rhs
    else
      let s := lhs ++ " " ++ op ++ " " ++ rhs
      if local_prec < prec then paren s else s
  | CIR.Stride n d => n ++ ".strides[" ++ toString d ++ "]"
  | CIR.USub a _ => "-" ++ comp_cir a env (op_prec tildeOp)

/-- Whether compiling `e` with `comp_cir` requests the `exo_floor_div`
static helper (the side effect of `_call_static_helper` on
`_needed_helpers`, split out as a pure traversal). -/
def cir_needs_helper : CIR → Bool
  | CIR.Read _ _ => false
  | CIR.Const _ => false
  | CIR.Stride _ _ => false
  | CIR.USub a _ => cir_needs_helper a
  | CIR.BinOp op l r _ =>
    cir_needs_helper l || cir_needs_helper r || (op == "/" && !div_lhs_native l)

/-! ### The emitted floor-division helper (`_static_helpers`) -/

/-- The C text of the helper from `_static_helpers` in the source. -/
def static_helper_text : String :=
  "\nstatic int exo_floor_div(int num, int quot) \x7b\n  int off = (num>=0)? 0 : quot-1;\n  return (num-off)/quot;\n\x7d\n"

def static_helpers (nm : String) : String :=
  if nm = exo_floor_div_name then static_helper_text else ""

/-- The `needed_helpers` set accumulated over a translation unit (a set in
Python, hence duplicate-free): nonempty exactly when some compiled
expression requested the helper. -/
def needed_helpers (es : List CIR) : List String :=
  if es.any cir_needs_helper then [exo_floor_div_name] else []

/-- `helper_code` in `ext_compile_to_strings`: one text blob per needed
helper. -/
def helper_code (es : List CIR) : List String :=
  (needed_helpers es).map static_helpers

/-- The arithmetic of the emitted helper, over mathematical integers:
`off = (num>=0)? 0 : quot-1; return (num-off)/quot;` with C truncating
division (`Int.tdiv`). -/
def exo_floor_div (num quot : Int) : Int :=
  Int.tdiv (num - (if 0 ≤ num then 0 else quot - 1)) quot

/-! ### Normal forms of `simplify_cir` (toward idempotence, C9) -/

def isUSubNode : CIR → Bool
  | CIR.USub _ _ => true
  | _ => false

def isConstNode : CIR → Bool
  | CIR.Const _ => true
  | _ => false

/-- No rewrite of the `BinOp` arm of `simplify_cir` fires on
`BinOp op lhs rhs _` (the fall-through condition of the if-chain). -/
def no_binop_rewrite (op : String) (lhs rhs : CIR) : Bool :=
  match lhs, rhs with
  | CIR.Const _, CIR.Const _ => false
  | CIR.Const a, _ =>
    !(decide (a = 0 ∧ op = "+")) && !(decide (a = 0 ∧ (op = "*" ∨ op = "/"))) &&
      !(decide (a = 1 ∧ op = "*"))
  | _, CIR.Const b =>
    !(decide (b = 0 ∧ (op = "+" ∨ op = "-"))) && !(decide (b = 0 ∧ op = "*")) &&
      !(decide (b = 1 ∧ (op = "*" ∨ op = "/")))
  | _, _ => true

/-- Normal forms of `simplify_cir`: no rewrite applies anywhere. -/
def Simplified : CIR → Bool
  | CIR.Read _ _ => true
  | CIR.Const _ => true
  | CIR.Stride _ _ => true
  | CIR.BinOp op l r _ => Simplified l && Simplified r && no_binop_rewrite op l r
  | CIR.USub a _ => Simplified a && !isUSubNode a && !isConstNode a

/-! ### Claim C1: choice between native `/` and the floor-div helper -/

/-- Whether an emitted C expression is (at top level) a call of the
`exo_floor_div` helper, recognized by its leading characters. -/
def emits_floor_div_call (s : String) : Bool :=
  exo_floor_div_name.data.isPrefixOf s.data

/-- The specification's stated condition for emitting native `/`:
divisor statically positive and dividend proven non-negative. -/
def spec_native_div (lhs rhs : CIR) : Bool :=
  (match rhs with
    | CIR.Const v => decide (0 < v)
    | _ => false)
  && (match lhs with
    | CIR.Read _ nn => nn
    | CIR.BinOp _ _ _ nn => nn
    | CIR.USub _ nn => nn
    | CIR.Const v => decide (0 ≤ v)
    | CIR.Stride _ _ => false)

def symX : String := "x"

def symQ : String := "q"

def env0 : ExoSym → String := fun s => s

/-! ### Claim C6: the static-memory check (`Compiler.static_memory_check`) -/

/-- Statements as seen by `static_memory_check`: only `Alloc` (with the
`StaticMemory` subclassing of its memory kind), `Call` (with presence of
an instruction record on the callee), and the two recursive statement
forms matter; everything else is `Other`. -/
inductive LStmt where
  | Alloc (is_static : Bool)
  | Call (has_instr : Bool)
  | For (body : List LStmt)
  | If (body orelse : List LStmt)
  | Other
deriving Repr

mutual

/-- The `allocates_static_memory` inner function of
`Compiler.static_memory_check` (a `|=` fold over the block). -/
def allocates_static_memory : List LStmt → Bool
  | [] => false
  | s :: ss => allocates_static_memory_s s || allocates_static_memory ss

def allocates_static_memory_s : LStmt → Bool
  | LStmt.Alloc st => st
  | LStmt.For body => allocates_static_memory body
  | LStmt.If body orelse => allocates_static_memory body || allocates_static_memory orelse
  | _ => false

end

mutual

/-- The `is_leaf_proc` inner function of `Compiler.static_memory_check`
(an `&=` fold; a `Call` passes iff the callee has an `instr` record). -/
def is_leaf_proc : List LStmt → Bool
  | [] => true
  | s :: ss => is_leaf_proc_s s && is_leaf_proc ss

def is_leaf_proc_s : LStmt → Bool
  | LStmt.Call instr_rec => instr_rec
  | LStmt.For body => is_leaf_proc body
  | LStmt.If body orelse => is_leaf_proc body && is_leaf_proc orelse
  | _ => true

end

/-- `Compiler.static_memory_check`; `Compiler.__init__` raises
`MemGenError` (Cannot generate static memory in non-leaf procs) exactly
when this returns false. -/
def static_memory_check (body : List LStmt) : Bool :=
  !allocates_static_memory body || is_leaf_proc body

mutual

/-- A statement (recursively) contains an allocation of static memory. -/
inductive ContainsStaticAlloc : LStmt → Prop where
  | alloc : ContainsStaticAlloc (LStmt.Alloc true)
  | for_in (body : List LStmt) :
      ContainsStaticAllocL body → ContainsStaticAlloc (LStmt.For body)
  | if_body (body orelse : List LStmt) :
      ContainsStaticAllocL body → ContainsStaticAlloc (LStmt.If body orelse)
  | if_orelse (body orelse : List LStmt) :
      ContainsStaticAllocL orelse → ContainsStaticAlloc (LStmt.If body orelse)

inductive ContainsStaticAllocL : List LStmt → Prop where
  | head (s : LStmt) (ss : List LStmt) :
      ContainsStaticAlloc s → ContainsStaticAllocL (s :: ss)
  | tail (s : LStmt) (ss : List LStmt) :
      ContainsStaticAllocL ss → ContainsStaticAllocL (s :: ss)

end

mutual

/-- A statement (recursively) contains a `Call` to a procedure without an
instruction record. -/
inductive ContainsBareCall : LStmt → Prop where
  | call : ContainsBareCall (LStmt.Call false)
  | for_in (body : List LStmt) :
      ContainsBareCallL body → ContainsBareCall (LStmt.For body)
  | if_body (body orelse : List LStmt) :
      ContainsBareCallL body → ContainsBareCall (LStmt.If body orelse)
  | if_orelse (body orelse : List LStmt) :
      ContainsBareCallL orelse → ContainsBareCall (LStmt.If body orelse)

inductive ContainsBareCallL : List LStmt → Prop where
  | head (s : LStmt) (ss : List LStmt) :
      ContainsBareCall s → ContainsBareCallL (s :: ss)
  | tail (s : LStmt) (ss : List LStmt) :
      ContainsBareCallL ss → ContainsBareCallL (s :: ss)

end

/-! ### Claim C10: the half-written collective-algebra variants -/

/-- `CollIndexExpr` of `spork/coll_algebra.py`: a base expression that is
either an integer constant or a target-language string, plus a sequence
of (operator, integer) pairs; `ops` is only allowed when the base is a
string (invariant of `__init__`). -/
structure CollIndexExpr where
  base_expr : Sum Int String
  ops : List (String × Int)
deriving DecidableEq, Repr

def isIntBase : Sum Int String → Bool
  | Sum.inl _ => true
  | Sum.inr _ => false

/-- `CollIndexExpr.__sub__`.  The first two branches `return`; the merge
branch (trailing subtract op) and the append branch both compute
`result` but never return it, so Python yields `None`, modelled as
`Option.none`. -/
def coll_index_sub (e : CollIndexExpr) (v : Int) : Option CollIndexExpr :=
  match e.base_expr with
  | Sum.inl n => some ⟨Sum.inl (n - v), []⟩
  | Sum.inr _ =>
    if v = 0 then some e
    else
      let new_ops :=
        match e.ops.getLast? with
        | some (op, u) =>
          if op = "-" then e.ops.dropLast ++ [(opSub, u + v)] else e.ops ++ [(opSub, v)]
        | none => e.ops ++ [(opSub, v)]
      let _result : CollIndexExpr := ⟨e.base_expr, new_ops⟩
      none

inductive PyError where
  | nameError (nm : String)
deriving DecidableEq, Repr

def envName : String := "env"

/-- `CollTiling.specialized` of `spork/coll_algebra.py`: its very first
statement evaluates the unbound name `env`
(`spec.int_partial_domain(env)`), so every call raises `NameError`
before doing any work; the method also has no return statement. -/
def coll_tiling_specialized (_self_domain _spec_partial_domain _spec_offset _spec_box : List Int) :
    Except PyError Unit :=
  Except.error (PyError.nameError envName)

def baseThreadIdx : String := "threadIdx"

/-! ### Claim C5: fresh-name policies of the printer and the compiler -/

/-- The bump step shared by both policies: Python
`re.match(r"^(.*)_([0-9]*)$", s)` matches iff all characters after the
last underscore are digits (the greedy group picks the last such
underscore); on a match the trailing number is incremented, else `_1` is
appended.  (With an empty digit group the source raises `ValueError` at
`int(m[2])`; modelled as the no-match arm, never exercised below.) -/
def digitsToNat (ds : List Char) : Nat :=
  ds.foldl (fun acc c => acc * 10 + (c.toNat - '0'.toNat)) 0

def bump_name (s : String) : String :=
  let rev := s.data.reverse
  let digits := rev.takeWhile Char.isDigit
  let rest := rev.dropWhile Char.isDigit
  match rest, digits with
  | '_' :: stemRev, _ :: _ =>
    String.mk stemRev.reverse ++ "_" ++ toString (digitsToNat digits.reverse + 1)
  | _, _ => s ++ "_1"

/-- Python-dict membership for an association list where the most recent
binding is consed to the front. -/
def dictHas (d : List (String × String)) (k : String) : Bool :=
  d.any (fun p => p.1 == k)

def dictGet (d : List (String × String)) (k : String) : String :=
  ((d.find? (fun p => p.1 == k)).map Prod.snd).getD ""

/-- `LoopIR_PPrinter.new_name` (LoopIR_pprint.py): on a collision it bumps
the stored name ONCE and records it, without checking that the bumped
name is itself unused. -/
def pprint_new_name (env : List (String × String)) (nm : String) :
    String × List (String × String) :=
  if dictHas env nm then
    let s := bump_name (dictGet env nm)
    (s, (nm, s) :: env)
  else
    (nm, (nm, nm) :: env)

/-- Printed names assigned to a sequence of symbol base names, in order. -/
def pprint_new_names (nms : List String) : List String :=
  (nms.foldl
    (fun acc nm =>
      let r := pprint_new_name acc.2 nm
      (acc.1 ++ [r.1], r.2))
    (([] : List String), ([] : List (String × String)))).1

/-- The `while s in self.names` loop of `Compiler.new_varname`, with
explicit fuel (the source loop terminates because bumped candidates are
pairwise distinct and the dictionary is finite). -/
def bump_until_fresh (fuel : Nat) (names : List (String × String)) (s : String) : String :=
  match fuel with
  | 0 => s
  | fuel + 1 =>
    if dictHas names s then bump_until_fresh fuel names (bump_name s) else s

/-- `Compiler.new_varname` (LoopIR_compiler.py), restricted to the naming
logic (type/memory bookkeeping dropped): on a collision it bumps until
the candidate is absent from `names`, then records both the base and the
fresh name. -/
def new_varname (fuel : Nat) (names : List (String × String)) (strnm : String) :
    String × List (String × String) :=
  if dictHas names strnm then
    let s := bump_until_fresh fuel names (dictGet names strnm)
    (s, (s, s) :: (strnm, s) :: names)
  else
    (strnm, (strnm, strnm) :: names)

/-- Emitted names assigned by the compiler to a sequence of symbol base
names, in order (single scope). -/
def new_varnames (fuel : Nat) (nms : List String) : List String :=
  (nms.foldl
    (fun acc nm =>
      let r := new_varname fuel acc.2 nm
      (acc.1 ++ [r.1], r.2))
    (([] : List String), ([] : List (String × String)))).1

def nameX : String := "x"

def nameX1 : String := "x_1"

/-! ### Window struct synthesis (`_window_struct`, `window_struct`) -/

/-- The scalar types admitted by `_window_struct_shorthand`. -/
inductive ScalarTy where
  | f16 | f32 | f64 | i8 | ui8 | ui16 | i32
deriving DecidableEq, Repr

/-- The `_window_struct_shorthand` table. -/
def shorthand : ScalarTy → String
  | ScalarTy.f16 => "f16"
  | ScalarTy.f32 => "f32"
  | ScalarTy.f64 => "f64"
  | ScalarTy.i8 => "i8"
  | ScalarTy.ui8 => "ui8"
  | ScalarTy.ui16 => "ui16"
  | ScalarTy.i32 => "i32"

/-- Modelled from the spec: `T.<t>.ctype()` lives in `core/LoopIR.py`,
which is not under `src/`; the spec's signature table (§6) fixes the C
scalar names. -/
def ctypeOf : ScalarTy → String
  | ScalarTy.f16 => "_Float16"
  | ScalarTy.f32 => "float"
  | ScalarTy.f64 => "double"
  | ScalarTy.i8 => "int8_t"
  | ScalarTy.ui8 => "uint8_t"
  | ScalarTy.ui16 => "uint16_t"
  | ScalarTy.i32 => "int32_t"

structure WindowStruct where
  name : String
  definition : String
deriving DecidableEq, Repr

/-- Python `str.upper()` on the ASCII struct names (structural, so it
evaluates in the kernel, unlike `String.toUpper`). -/
def str_upper (s : String) : String := String.mk (s.data.map Char.toUpper)

/-- `_window_struct` of `LoopIR_compiler.py` (the `functools.cache` makes
it a pure function of the triple).  Note the strides field is
`int_fast32_t`, not `int32_t`. -/
def _window_struct (typename ctype : String) (n_dims : Nat) (is_const : Bool) : WindowStruct :=
  let const_kwd := if is_const then "const " else ""
  let const_suffix := if is_const then "c" else ""
  let sname := "exo_win_" ++ toString n_dims ++ typename ++ const_suffix
  let sdef := "struct " ++ sname ++ "\x7b\n    " ++ const_kwd ++ ctype
    ++ " * const data;\n    const int_fast32_t strides[" ++ toString n_dims ++ "];\n\x7d;"
  let sdef_guard := str_upper sname
  let sdef2 := "#ifndef " ++ sdef_guard ++ "\n#define " ++ sdef_guard ++ "\n" ++ sdef
    ++ "\n#endif"
  WindowStruct.mk sname sdef2

/-- `window_struct`: dispatches through the shorthand table. -/
def window_struct (base : ScalarTy) (n_dims : Nat) (is_const : Bool) : WindowStruct :=
  _window_struct (shorthand base) (ctypeOf base) n_dims is_const

/-- Naive substring test over the underlying character lists (structural,
so it evaluates in the kernel). -/
def listContainsSub (pat : List Char) : List Char → Bool
  | [] => pat.isEmpty
  | c :: rest => pat.isPrefixOf (c :: rest) || listContainsSub pat rest

def strContains (s pat : String) : Bool := listContainsSub pat.data s.data

/-! ### The indexable LoopIR expression fragment and `lift_to_cir` -/

/-- The LoopIR expression forms handled by `lift_to_cir` (the indexable
fragment), plus buffer reads with indices as they appear on the sides of
`Assign`/`Reduce` and in `comp_e`. -/
inductive LExpr where
  | Read (name : ExoSym) (idx : List LExpr)
  | Const (val : Rat)
  | BinOp (op : String) (lhs rhs : LExpr)
  | USub (arg : LExpr)
deriving Repr

/-- `lift_to_cir`.  The `is_non_neg` closure queries
`range_env.check_expr_bound(0, leq, e)`; `range_analysis.py` is not under
`src/`, so the range environment is abstracted as the oracle `nonneg`. -/
def lift_to_cir (nonneg : LExpr → Bool) : LExpr → CIR
  | e0@(LExpr.Read nm _) => CIR.Read nm (nonneg e0)
  | LExpr.Const v => CIR.Const v
  | e0@(LExpr.BinOp op l r) =>
    CIR.BinOp op (lift_to_cir nonneg l) (lift_to_cir nonneg r) (nonneg e0)
  | e0@(LExpr.USub a) => CIR.USub (lift_to_cir nonneg a) (nonneg e0)

/-- A memory capability as the compiler sees it (`core/memory.py` is not
under `src/`; the hook signatures follow the spec's capability interface,
with the statement/type/srcinfo arguments dropped since the compiler
passes them through opaquely). -/
structure ExoMemory where
  name : String
  can_read : Bool
  read : String → String → String
  write : String → String → String
  reduce : String → String → String
  window : String → List String → List String → String
  is_cuda_rmem : Bool

/-- The part of a LoopIR type that the emission paths below inspect. -/
inductive LType where
  | size | index | boolT | stride
  | scalar
  | tensor (shape : List LExpr) (is_win : Bool)

/-- `rtyp.is_indexable() or rtyp is T.bool or rtyp == T.stride`. -/
def ltype_direct : LType → Bool
  | LType.size => true
  | LType.index => true
  | LType.boolT => true
  | LType.stride => true
  | _ => false

def ltype_is_win : LType → Bool
  | LType.tensor _ w => w
  | _ => false

def ltype_tensor_or_window : LType → Bool
  | LType.tensor _ _ => true
  | _ => false

def ltype_real_scalar : LType → Bool
  | LType.scalar => true
  | _ => false

/-- The compiler state consulted by expression and statement emission:
`self.env`, `self.envtyp`, `self.mems`, `self._scalar_refs`,
`self._known_strides`, and the range environment (as oracle). -/
structure CompilerCtx where
  env : ExoSym → String
  envtyp : ExoSym → LType
  mems : ExoSym → ExoMemory
  scalar_refs : ExoSym → Bool
  known_strides : ExoSym → Nat → Option Int
  nonneg : LExpr → Bool

/-- Right-nested product accumulated by the loop in
`Compiler.tensor_strides`. -/
def cir_prod (x : CIR) : List CIR → CIR
  | [] => x
  | y :: ys => CIR.BinOp "*" x (cir_prod y ys) true

/-- `Compiler.tensor_strides` on already lifted sizes: the suffix products
of the shape, innermost stride `1`. -/
def tensor_strides_cir : List CIR → List CIR
  | [] => []
  | [_] => [CIR.Const 1]
  | _ :: sz2 :: rest => cir_prod sz2 rest :: tensor_strides_cir (sz2 :: rest)

/-- `Compiler.get_strides`: for window types, per-dimension known strides
from stride-equality preconditions or `CIR.Stride` accesses; for dense
tensors, the suffix products of the shape. -/
def get_strides (ctx : CompilerCtx) (name : ExoSym) (typ : LType) : List CIR :=
  match typ with
  | LType.tensor shape true =>
    (List.range shape.length).map (fun i =>
      match ctx.known_strides name i with
      | some c => CIR.Const (c : Rat)
      | none => CIR.Stride name i)
  | LType.tensor shape false =>
    tensor_strides_cir (shape.map (lift_to_cir ctx.nonneg))
  | _ => []

/-- `Compiler.get_idx_offset`: the inner-product of indices and strides
(`idx0*s0 + idx1*s1 + ...`, left-nested additions).  The source asserts
equal lengths; unequal lengths are modelled as `Const 0` (unreachable). -/
def get_idx_offset (ctx : CompilerCtx) (name : ExoSym) (typ : LType) (idx : List CIR) : CIR :=
  let strides := get_strides ctx name typ
  match idx, strides with
  | i0 :: irest, s0 :: srest =>
    (List.zip irest srest).foldl
      (fun acc p => CIR.BinOp "+" acc (CIR.BinOp "*" p.1 p.2 true) true)
      (CIR.BinOp "*" i0 s0 true)
  | _, _ => CIR.Const 0

/-- `Compiler.access_str`: lift indices, build the offset, simplify,
render; subscript `.data` for windows. -/
def access_str (ctx : CompilerCtx) (nm : ExoSym) (idx_list : List LExpr) : String :=
  let typ := ctx.envtyp nm
  let cirs := idx_list.map (lift_to_cir ctx.nonneg)
  let idx_expr := get_idx_offset ctx nm typ cirs
  let idx_expr_s := comp_cir (simplify_cir idx_expr) ctx.env 0
  let buf := ctx.env nm
  if ltype_is_win typ then buf ++ ".data[" ++ idx_expr_s ++ "]"
  else buf ++ "[" ++ idx_expr_s ++ "]"

inductive CompErr where
  | memGenError (buf : String) (mem : String)
deriving DecidableEq, Repr

/-- The `LoopIR.Read` arm of `Compiler.comp_e`: indexable reads are plain
variables; tensor reads check `can_read` (with the documented `CudaRmem`
backdoor bypassing the check) and then the compiler itself renders the
access — no `read` hook of the memory is consulted. -/
def comp_read (ctx : CompilerCtx) (name : ExoSym) (idx : List LExpr) : Except CompErr String :=
  let rtyp := ctx.envtyp name
  if ltype_direct rtyp then Except.ok (ctx.env name)
  else
    let mem := ctx.mems name
    if mem.is_cuda_rmem then Except.ok (ctx.env name)
    else if !mem.can_read then Except.error (CompErr.memGenError name mem.name)
    else if ctx.scalar_refs name then
      let d := "*" ++ ctx.env name
      Except.ok d
    else if !(ltype_tensor_or_window rtyp) then Except.ok (ctx.env name)
    else Except.ok (access_str ctx name idx)

/-- `Compiler.comp_e` on the modelled fragment.  For this indexable
fragment every `/` is an integer division (`int_div` in the source), and
the `check_expr_bound` query is the `nonneg` oracle. -/
def comp_e (ctx : CompilerCtx) (e : LExpr) (prec : Nat) : Except CompErr String :=
  match e with
  | LExpr.Read nm idx => comp_read ctx nm idx
  | LExpr.Const v => Except.ok (toString v)
  | LExpr.USub a => do
    let s ← comp_e ctx a (op_prec tildeOp)
    let r := "-" ++ s
    Except.ok r
  | e0@(LExpr.BinOp op l r) => do
    let int_div := op == "/"
    let local_prec := if int_div then 0 else op_prec op
    let cop := if op == "and" then "&&" else if op == "or" then "||" else op
    let lhs ← comp_e ctx l local_prec
    let rhs ← comp_e ctx r (local_prec + 1)
    if int_div then
      if ctx.nonneg e0 then
        let d := "((" ++ lhs ++ ") / (" ++ rhs ++ "))"
        Except.ok d
      else Except.ok (call_static_helper exo_floor_div_name lhs rhs)
    else
      let s := lhs ++ " " ++ cop ++ " " ++ rhs
      Except.ok (if local_prec < prec then paren s else s)

/-- The cast inserted by `comp_s` when the left and right base types
differ (`(ctype)(rhs)`); the precision analysis supplying the type
comparison is upstream, so the optional cast type is a parameter. -/
def apply_cast (cast : Option String) (rhs : String) : String :=
  match cast with
  | some ct => "(" ++ ct ++ ")(" ++ rhs ++ ")"
  | none => rhs

/-- The left-hand-side string of an `Assign`/`Reduce` in `comp_s`. -/
def assign_lhs (ctx : CompilerCtx) (name : ExoSym) (idx : List LExpr) : String :=
  if ctx.scalar_refs name then
    let d := "*" ++ ctx.env name
    d
  else if ltype_real_scalar (ctx.envtyp name) then ctx.env name
  else access_str ctx name idx

/-- The `Assign`/`Reduce` arm of `Compiler.comp_s`: computes the lhs and
rhs strings, applies the cast, and delegates the emitted line to the
target memory's `write` (for `Assign`) or `reduce` (for `Reduce`) hook. -/
def comp_assign_reduce (ctx : CompilerCtx) (is_reduce : Bool) (name : ExoSym)
    (idx : List LExpr) (rhs : LExpr) (cast : Option String) : Except CompErr String := do
  let lhs := assign_lhs ctx name idx
  let rhs_s ← comp_e ctx rhs 0
  let rhs_c := apply_cast cast rhs_s
  let mem := ctx.mems name
  Except.ok (if is_reduce then mem.reduce lhs rhs_c else mem.write lhs rhs_c)

/-! ### WindowExpr compilation (`Compiler.window_struct_fields`) -/

/-- A window access along one axis: a range (`LoopIR.Interval`) or a
single point (`LoopIR.Point`). -/
inductive WAccess where
  | Interval (lo hi : LExpr)
  | Point (pt : LExpr)

def w_lo : WAccess → LExpr
  | WAccess.Interval lo _ => lo
  | WAccess.Point pt => pt

def isIntervalW : WAccess → Bool
  | WAccess.Interval _ _ => true
  | _ => false

/-- `Compiler.window_struct_fields`: per-axis low offsets are lifted,
simplified and rendered; the data pointer is produced by the memory's
`window` hook; the struct's strides are the rendered parent strides of
the `Interval` axes, in original dimension order. -/
def window_struct_fields (ctx : CompilerCtx) (name : ExoSym) (idx : List WAccess) :
    String × String :=
  let base := ctx.env name
  let basetyp := ctx.envtyp name
  let mem := ctx.mems name
  let cirs := idx.map (fun w => lift_to_cir ctx.nonneg (w_lo w))
  let idxs := cirs.map (fun i => comp_cir (simplify_cir i) ctx.env 0)
  let all_strides := get_strides ctx name basetyp
  let all_strides_s := all_strides.map (fun i => comp_cir (simplify_cir i) ctx.env 0)
  let dataptr := mem.window base idxs all_strides_s
  let strides := String.intercalate ", "
    (((List.zip all_strides_s idx).filter (fun p => isIntervalW p.2)).map Prod.fst)
  (dataptr, strides)

/-- The struct literal emitted for a `WindowExpr` by `comp_e` /
`comp_fnarg` once the struct name is resolved:
`(struct W){ &data, { strides } }`. -/
def window_expr_literal (win_struct data strides : String) : String :=
  "(struct " ++ win_struct ++ ")\x7b &" ++ data ++ ", \x7b " ++ strides ++ " \x7d \x7d"

/-! ### Claim C3: window struct synthesis -/

def allScalars : List ScalarTy :=
  [ScalarTy.f16, ScalarTy.f32, ScalarTy.f64, ScalarTy.i8, ScalarTy.ui8,
    ScalarTy.ui16, ScalarTy.i32]

/-- All (scalar type, rank, constness) triples with rank 1..9. -/
def allWinTriples : List (ScalarTy × Nat × Bool) :=
  (List.range 9).flatMap (fun n =>
    allScalars.flatMap (fun t => [(t, n + 1, true), (t, n + 1, false)]))

def winName (p : ScalarTy × Nat × Bool) : String :=
  (window_struct p.1 p.2.1 p.2.2).name

def specInt32Field : String := "const int32_t strides[2];"

def fastInt32Field : String := "const int_fast32_t strides[2];"

/-- The `Interval`-selected strides, by plain recursion (specification
side of the zip/filter comprehension in `window_struct_fields`). -/
def select_intervals : List String → List WAccess → List String
  | s :: ss, WAccess.Interval _ _ :: ws => s :: select_intervals ss ws
  | _ :: ss, WAccess.Point _ :: ws => select_intervals ss ws
  | _, _ => []

/-- Modelled from the spec: `DRAM.window` lives in `core/memory.py`,
which is not under `src/`; scenario S5 fixes the dataptr shape
`base[lo0*stride0 + lo1*stride1 + ...]`. -/
def dram_window_hook : String → List String → List String → String :=
  fun base idxs strides =>
    base ++ "[" ++ String.intercalate " + "
      (List.zipWith (fun i s => i ++ " * " ++ s) idxs strides) ++ "]"

/-- A DRAM-like memory; hooks modelled from the spec's capability
interface (`core/memory.py` is not under `src/`). -/
def memDRAM : ExoMemory :=
  ExoMemory.mk "DRAM" true (fun _ r => r) (fun l r => l ++ " = " ++ r ++ ";")
    (fun l r => l ++ " += " ++ r ++ ";") dram_window_hook false

def symA : String := "A"

def symM : String := "M"

def symN : String := "N"

/-- The S5 context: `A : f32[M, N]` dense tensor in DRAM, identity
renaming, every range query provable. -/
def ctxS5 : CompilerCtx :=
  CompilerCtx.mk (fun s => s)
    (fun s =>
      if s = symA then LType.tensor [LExpr.Read symM [], LExpr.Read symN []] false
      else LType.index)
    (fun _ => memDRAM) (fun _ => false) (fun _ _ => none) (fun _ => true)

/-- The S5 window `A[0:M, 4:4+16]`. -/
def idxS5 : List WAccess :=
  [WAccess.Interval (LExpr.Const 0) (LExpr.Read symM []),
    WAccess.Interval (LExpr.Const 4) (LExpr.Const 20)]

/-! ### Claim C4: delegation of Assign/Reduce/Read to memory hooks -/

def withReadHook (m : ExoMemory) (f : String → String → String) : ExoMemory :=
  ExoMemory.mk m.name m.can_read f m.write m.reduce m.window m.is_cuda_rmem

/-- Replace every memory's `read` hook, leaving all else unchanged. -/
def override_read (ctx : CompilerCtx) (f : String → String → String) : CompilerCtx :=
  CompilerCtx.mk ctx.env ctx.envtyp (fun s => withReadHook (ctx.mems s) f)
    ctx.scalar_refs ctx.known_strides ctx.nonneg

def symB : String := "b"

def readSentinelA : String := "READ_HOOK_A"

def readSentinelB : String := "READ_HOOK_B"

def probeL : String := "lhs_probe"

def probeR : String := "rhs_probe"

def mkCtx (mems : ExoSym → ExoMemory) : CompilerCtx :=
  CompilerCtx.mk (fun s => s)
    (fun s => if s = symB then LType.tensor [LExpr.Const 8] false else LType.index)
    mems (fun _ => false) (fun _ _ => none) (fun _ => true)

def ctxReadA : CompilerCtx :=
  mkCtx (fun _ => withReadHook memDRAM (fun _ _ => readSentinelA))

def ctxReadB : CompilerCtx :=
  mkCtx (fun _ => withReadHook memDRAM (fun _ _ => readSentinelB))

def memNoReadName : String := "WriteOnlyScratch"

def memNoRead : ExoMemory :=
  ExoMemory.mk memNoReadName false (fun _ r => r) (fun l r => l ++ " = " ++ r ++ ";")
    (fun l r => l ++ " += " ++ r ++ ";") dram_window_hook false

def ctxNoRead : CompilerCtx := mkCtx (fun _ => memNoRead)

/-! ### Claim C7: the call-graph walk (`find_all_subprocs`) -/

/-- Procedures are modelled as graph nodes; `g` maps a procedure to its
`LoopIR_SubProcs` result (the `Call` targets of its body, empty for
instruction procedures). -/
abbrev Proc := Nat

structure WalkSt where
  seen : List Proc
  out : List Proc
deriving Repr

inductive WalkErr where
  | cycle (p : Proc)
  | fuelOut
deriving DecidableEq, Repr

mutual

/-- The `walk` inner function of `find_all_subprocs`, with explicit fuel
(the source recursion terminates because `seen` only grows inside a
fixed object graph): returns early when the procedure is already seen,
otherwise appends it and walks its callees. -/
def walk (g : Proc → List Proc) (fuel : Nat) (p : Proc) (visited : List Proc)
    (st : WalkSt) : Except WalkErr WalkSt :=
  match fuel with
  | 0 => Except.error WalkErr.fuelOut
  | fuel' + 1 =>
    if p ∈ st.seen then Except.ok st
    else walkList g fuel' (g p) p visited (WalkSt.mk (p :: st.seen) (st.out ++ [p]))
termination_by (fuel, 0)

/-- The child loop of `walk`: raises on a callee that is on the current
DFS path -- checked against `visited` WITHOUT the current procedure
`p`, while recursing with `p` added. -/
def walkList (g : Proc → List Proc) (fuel : Nat) (cs : List Proc) (p : Proc)
    (visited : List Proc) (st : WalkSt) : Except WalkErr WalkSt :=
  match cs with
  | [] => Except.ok st
  | c :: cs' =>
    if c ∈ visited then Except.error (WalkErr.cycle c)
    else
      match walk g fuel c (p :: visited) st with
      | Except.error e => Except.error e
      | Except.ok st2 => walkList g fuel cs' p visited st2
termination_by (fuel, cs.length + 1)

end

/-- The `for proc in proc_list: walk(proc, set())` loop. -/
def walkRoots (g : Proc → List Proc) (fuel : Nat) (roots : List Proc) (st : WalkSt) :
    Except WalkErr WalkSt :=
  match roots with
  | [] => Except.ok st
  | r :: rs =>
    match walk g fuel r [] st with
    | Except.error e => Except.error e
    | Except.ok st2 => walkRoots g fuel rs st2

/-- `find_all_subprocs`: walk every root with an empty path and reverse
the append order for C declaration order. -/
def find_all_subprocs (g : Proc → List Proc) (fuel : Nat) (roots : List Proc) :
    Except WalkErr (List Proc) :=
  (walkRoots g fuel roots (WalkSt.mk [] [])).map (fun st => st.out.reverse)

/-- Paths of length exactly `n` in the call graph. -/
def ReachN (g : Proc → List Proc) : Nat → Proc → Proc → Prop
  | 0, p, q => p = q
  | n + 1, p, q => ∃ c ∈ g p, ReachN g n c q

def Reach (g : Proc → List Proc) (p q : Proc) : Prop := ∃ n, ReachN g n p q

def ReachFrom (g : Proc → List Proc) (roots : List Proc) (q : Proc) : Prop :=
  ∃ r ∈ roots, Reach g r q

inductive VChain (g : Proc → List Proc) : List Proc → Proc → Prop
  | nil (p : Proc) : VChain g [] p
  | cons (a : Proc) (rest : List Proc) (p : Proc) :
      p ∈ g a → VChain g rest a → VChain g (a :: rest) p

/-- All of `seen` is either on the active DFS path (`visited`) or has its
full reachable set inside `seen`. -/
def Closed (g : Proc → List Proc) (seen visited : List Proc) : Prop :=
  ∀ s ∈ seen, s ∈ visited ∨ (∀ q, Reach g s q → q ∈ seen)

/-- Invariant of the walk state: the output has no duplicates, `seen` and
`out` hold the same procedures, and every listed procedure satisfies the
(step-closed) predicate `R`. -/
def WInv (R : Proc → Prop) (st : WalkSt) : Prop :=
  st.out.Nodup ∧ (∀ x, x ∈ st.seen ↔ x ∈ st.out) ∧ (∀ x ∈ st.out, R x)

/-- An acyclic graph: 0 calls 2 and 1 (in that child order), 1 calls 2. -/
def g0 : Proc → List Proc := fun n => if n = 0 then [2, 1] else if n = 1 then [2] else []

/-- A self-recursive procedure (a call cycle of length one). -/
def gSelf : Proc → List Proc := fun n => if n = 5 then [5] else []

/-- The claim's ordering property on the emitted declaration list: every
callee that appears in the list appears before its caller. -/
def callees_precede (g : Proc → List Proc) (l : List Proc) : Bool :=
  l.all (fun u =>
    ((g u).filter (fun v => l.contains v)).all (fun v => l.indexOf v < l.indexOf u))

/-! ### Normal forms of `simplify_cir` (toward idempotence, C9) -/

theorem simp_binop_simplified (op : String) (l r : CIR) (nn : Bool)
    (hl : Simplified l = true) (hr : Simplified r = true) :
    Simplified (simp_binop op l r nn) = true := by
  cases l <;> cases r <;>
    simp only [simp_binop] <;>
    (try split_ifs with h1 h2 h3) <;>
    simp_all [Simplified, no_binop_rewrite] <;>
    tauto

theorem simp_usub_simplified (a : CIR) (nn : Bool) (ha : Simplified a = true) :
    Simplified (simp_usub a nn) = true := by
  cases a <;> simp_all [simp_usub, Simplified, isUSubNode, isConstNode]

theorem simplify_cir_simplified (e : CIR) : Simplified (simplify_cir e) = true := by
  induction e with
  | Read n nn => simp [simplify_cir, Simplified]
  | Const v => simp [simplify_cir, Simplified]
  | Stride n d => simp [simplify_cir, Simplified]
  | BinOp op l r nn ihl ihr =>
    simpa [simplify_cir] using simp_binop_simplified op _ _ nn ihl ihr
  | USub a nn iha =>
    simpa [simplify_cir] using simp_usub_simplified _ nn iha

theorem simplify_cir_fixed (e : CIR) (h : Simplified e = true) :
    simplify_cir e = e := by
  induction e with
  | Read n nn => rfl
  | Const v => rfl
  | Stride n d => rfl
  | BinOp op l r nn ihl ihr =>
    simp only [Simplified, Bool.and_eq_true] at h
    obtain ⟨⟨hl, hr⟩, hno⟩ := h
    simp only [simplify_cir, ihl hl, ihr hr]
    cases l <;> cases r <;>
      simp_all [simp_binop, no_binop_rewrite] <;>
      (split_ifs with h1 h2 h3 <;> simp_all)
  | USub a nn iha =>
    simp only [Simplified, Bool.and_eq_true] at h
    obtain ⟨⟨ha, hu⟩, hc⟩ := h
    simp only [simplify_cir, iha ha]
    cases a <;> simp_all [simp_usub, isUSubNode, isConstNode]

/-! ### Claim C9: idempotence of `simplify_cir` -/

/-- C9: `simplify_cir` is idempotent: simplifying an already simplified
CIR index expression returns it unchanged, structurally. -/
theorem C9_simplify_cir_idempotent (e : CIR) :
    simplify_cir (simplify_cir e) = simplify_cir e :=
  simplify_cir_fixed (simplify_cir e) (simplify_cir_simplified e)

/-! ### Claim C8: constant folding of division changes the value -/

/-- C8: the constant-folding table uses Python `/` (true division), so
folding `7 / 2` produces the non-integer constant `3.5`, while the
emitted C for the unsimplified expression (whether native truncating `/`
on a non-negative dividend or the `exo_floor_div` helper) computes `3`:
`simplify_cir` does not preserve the denoted integer value of division. -/
theorem C8_const_div_fold_changes_value :
    simplify_cir (CIR.BinOp opDiv (CIR.Const 7) (CIR.Const 2) true)
        = CIR.Const (7 / 2 : Rat)
      ∧ ((7 / 2 : Rat) ≠ ((3 : Int) : Rat))
      ∧ (∀ v : Int, ((v : Rat) ≠ (7 / 2 : Rat)))
      ∧ exo_floor_div 7 2 = 3
      ∧ Int.tdiv 7 2 = 3 := by
  refine ⟨rfl, by norm_num, ?_, by decide, by decide⟩
  intro v h
  have : ((v : Rat)).den = 1 := Rat.intCast_den v
  rw [h] at this
  norm_num at this

/-! ### Claim C2: floor-division helper correctness and emission -/

/-- C2: over mathematical integers, the emitted helper computes floored
division for every strictly positive divisor; and per translation unit
the helper text is emitted at most once, exactly when some compiled
index expression requested it. -/
theorem C2_floor_div_helper_correct :
    (∀ n q : Int, 0 < q → exo_floor_div n q = Int.fdiv n q)
      ∧ (∀ es : List CIR,
          (helper_code es).count static_helper_text ≤ 1
            ∧ (static_helper_text ∈ helper_code es ↔ es.any cir_needs_helper = true)) := by
  constructor
  · intro n q hq
    rw [Int.fdiv_eq_ediv _ (le_of_lt hq)]
    unfold exo_floor_div
    by_cases hn : 0 ≤ n
    · simp only [hn, if_true, sub_zero]
      exact Int.tdiv_eq_ediv hn (le_of_lt hq)
    · simp only [hn, if_false]
      have hr0 : 0 ≤ n % q := Int.emod_nonneg n (ne_of_gt hq)
      have hr1 : n % q < q := Int.emod_lt_of_pos n hq
      have hnk : q * (n / q) + n % q = n := Int.ediv_add_emod n q
      have hneg : n < 0 := lt_of_not_ge hn
      have hk : n / q < 0 := by
        by_contra hk0
        have hk0' : 0 ≤ n / q := le_of_not_lt hk0
        have : 0 ≤ q * (n / q) := mul_nonneg (le_of_lt hq) hk0'
        omega
      have h1 : n - (q - 1) = q * (n / q) - (q - 1 - n % q) := by
        linear_combination -hnk
      rw [h1]
      have hnonneg : 0 ≤ q * (-(n / q)) + (q - 1 - n % q) := by
        have : 0 ≤ q * (-(n / q)) := mul_nonneg (le_of_lt hq) (by omega)
        omega
      have h3 : (q * (-(n / q)) + (q - 1 - n % q)).tdiv q = -(n / q) := by
        rw [Int.tdiv_eq_ediv hnonneg (le_of_lt hq)]
        rw [add_comm, mul_comm, Int.add_mul_ediv_right _ _ (ne_of_gt hq)]
        rw [Int.ediv_eq_zero_of_lt (by omega) (by omega), zero_add]
      have h4 : q * (n / q) - (q - 1 - n % q)
          = -(q * (-(n / q)) + (q - 1 - n % q)) := by ring
      rw [h4, Int.neg_tdiv, h3, neg_neg]
  · intro es
    unfold helper_code needed_helpers
    by_cases h : es.any cir_needs_helper
    · simp [h, static_helpers, exo_floor_div_name]
    · simp [h]

/-- Witness for C2 at a concrete input: `exo_floor_div (-7) 2 = -4`. -/
theorem C2_floor_div_helper_correct_witness :
    exo_floor_div (-7) 2 = Int.fdiv (-7) 2 :=
  C2_floor_div_helper_correct.1 (-7) 2 (by decide)

/-! ### Claim C1: choice between native `/` and the floor-div helper -/

theorem emits_floor_div_call_paren (s : String) :
    emits_floor_div_call (paren s) = false := by
  unfold emits_floor_div_call paren
  rw [String.data_append, String.data_append]
  show List.isPrefixOf ('e' :: _) (('(' :: List.nil) ++ _ ++ _) = false
  simp [List.isPrefixOf]

theorem emits_floor_div_call_helper (lhs rhs : String) :
    emits_floor_div_call (call_static_helper exo_floor_div_name lhs rhs) = true := by
  unfold emits_floor_div_call call_static_helper
  rw [String.data_append, String.data_append, String.data_append, String.data_append,
    String.data_append]
  rw [List.isPrefixOf_iff_prefix, List.append_assoc, List.append_assoc, List.append_assoc,
    List.append_assoc]
  exact List.prefix_append _ _

/-- C1 counterexample: for `x / q` with dividend `x` proven non-negative
and the divisor the plain variable `q` (hence not statically positive),
the claim demands the `exo_floor_div` helper, but `comp_cir` emits
native `/` — the divisor is never examined. -/
theorem C1_counterexample :
    spec_native_div (CIR.Read symX true) (CIR.Read symQ false) = false
      ∧ comp_cir (CIR.BinOp opDiv (CIR.Read symX true) (CIR.Read symQ false) true) env0 0
          = "(x / q)"
      ∧ emits_floor_div_call
          (comp_cir (CIR.BinOp opDiv (CIR.Read symX true) (CIR.Read symQ false) true) env0 0)
          = false := by
  refine ⟨rfl, rfl, ?_⟩
  decide

/-- C1 amended: `comp_cir` emits a call of the `exo_floor_div` helper for
a division exactly when the dividend is not (a `Read` or `BinOp` flagged
non-negative by the range environment, or a constant greater than zero);
the divisor plays no role in the choice. -/
theorem C1_div_emission_amended (l r : CIR) (nn : Bool) (env : ExoSym → String) (prec : Nat) :
    emits_floor_div_call (comp_cir (CIR.BinOp opDiv l r nn) env prec)
      = !div_lhs_native l := by
  simp only [comp_cir, opDiv]
  cases hdl : div_lhs_native l <;>
    simp [hdl, emits_floor_div_call_paren, emits_floor_div_call_helper]

/-! ### Claim C6: the static-memory check (`Compiler.static_memory_check`) -/

mutual

theorem alloc_static_iff_s (s : LStmt) :
    allocates_static_memory_s s = true ↔ ContainsStaticAlloc s := by
  cases s with
  | Alloc st =>
    cases st <;> simp [allocates_static_memory_s]
    · intro h; cases h
    · exact ContainsStaticAlloc.alloc
  | Call h =>
    simp [allocates_static_memory_s]
    intro h; cases h
  | For body =>
    simp only [allocates_static_memory_s]
    rw [alloc_static_iff_l body]
    constructor
    · exact fun h => ContainsStaticAlloc.for_in body h
    · intro h; cases h; assumption
  | If body orelse =>
    simp only [allocates_static_memory_s, Bool.or_eq_true]
    rw [alloc_static_iff_l body, alloc_static_iff_l orelse]
    constructor
    · rintro (h | h)
      · exact ContainsStaticAlloc.if_body body orelse h
      · exact ContainsStaticAlloc.if_orelse body orelse h
    · intro h
      cases h with
      | if_body _ _ h => exact Or.inl h
      | if_orelse _ _ h => exact Or.inr h
  | Other =>
    simp [allocates_static_memory_s]
    intro h; cases h

theorem alloc_static_iff_l (ss : List LStmt) :
    allocates_static_memory ss = true ↔ ContainsStaticAllocL ss := by
  cases ss with
  | nil =>
    simp [allocates_static_memory]
    intro h; cases h
  | cons s ss =>
    simp only [allocates_static_memory, Bool.or_eq_true]
    rw [alloc_static_iff_s s, alloc_static_iff_l ss]
    constructor
    · rintro (h | h)
      · exact ContainsStaticAllocL.head s ss h
      · exact ContainsStaticAllocL.tail s ss h
    · intro h
      cases h with
      | head _ _ h => exact Or.inl h
      | tail _ _ h => exact Or.inr h

end

mutual

theorem leaf_iff_s (s : LStmt) :
    is_leaf_proc_s s = false ↔ ContainsBareCall s := by
  cases s with
  | Alloc st =>
    simp [is_leaf_proc_s]
    intro h; cases h
  | Call h =>
    cases h <;> simp [is_leaf_proc_s]
    · exact ContainsBareCall.call
    · intro h; cases h
  | For body =>
    simp only [is_leaf_proc_s]
    rw [leaf_iff_l body]
    constructor
    · exact fun h => ContainsBareCall.for_in body h
    · intro h; cases h; assumption
  | If body orelse =>
    simp only [is_leaf_proc_s, Bool.and_eq_false_iff]
    rw [leaf_iff_l body, leaf_iff_l orelse]
    constructor
    · rintro (h | h)
      · exact ContainsBareCall.if_body body orelse h
      · exact ContainsBareCall.if_orelse body orelse h
    · intro h
      cases h with
      | if_body _ _ h => exact Or.inl h
      | if_orelse _ _ h => exact Or.inr h
  | Other =>
    simp [is_leaf_proc_s]
    intro h; cases h

theorem leaf_iff_l (ss : List LStmt) :
    is_leaf_proc ss = false ↔ ContainsBareCallL ss := by
  cases ss with
  | nil =>
    simp [is_leaf_proc]
    intro h; cases h
  | cons s ss =>
    simp only [is_leaf_proc, Bool.and_eq_false_iff]
    rw [leaf_iff_s s, leaf_iff_l ss]
    constructor
    · rintro (h | h)
      · exact ContainsBareCallL.head s ss h
      · exact ContainsBareCallL.tail s ss h
    · intro h
      cases h with
      | head _ _ h => exact Or.inl h
      | tail _ _ h => exact Or.inr h

end

/-- C6: compiling a procedure body fails the static-memory check (and so
`Compiler.__init__` raises `MemGenError`, Cannot generate static memory
in non-leaf procs) if and only if the body contains an allocation whose
memory kind is a `StaticMemory` and also contains a `Call` to a
procedure without an instruction record; in particular a body that
allocates static memory but whose calls are all instruction macros
passes the check. -/
theorem C6_static_memory_check_iff (body : List LStmt) :
    static_memory_check body = false
      ↔ (ContainsStaticAllocL body ∧ ContainsBareCallL body) := by
  unfold static_memory_check
  rw [← alloc_static_iff_l body, ← leaf_iff_l body]
  cases h1 : allocates_static_memory body <;> cases h2 : is_leaf_proc body <;> simp

/-! ### Claim C10: the half-written collective-algebra variants -/

/-- C10 counterexample: for a string-based expression whose last recorded
op IS a subtract, the claim asserts `__sub__` returns a merged value;
the merge branch also falls off the end of the function and yields
`None`. -/
theorem C10_counterexample :
    (⟨Sum.inr baseThreadIdx, [(opSub, 3)]⟩ : CollIndexExpr).ops.getLast? = some (opSub, 3)
      ∧ coll_index_sub ⟨Sum.inr baseThreadIdx, [(opSub, 3)]⟩ 2 = none := by
  exact ⟨rfl, rfl⟩

/-- C10 amended: `__sub__` returns a value exactly when the base
expression is an integer or the subtrahend is zero — both the merge
branch and the append branch forget to return, yielding `None` — and
every call of `CollTiling.specialized` fails with a `NameError` on the
unbound name `env`. -/
theorem C10_sub_specialized_amended (e : CollIndexExpr) (v : Int) :
    ((coll_index_sub e v).isSome = (isIntBase e.base_expr || decide (v = 0)))
      ∧ (∀ d pd off box : List Int,
          coll_tiling_specialized d pd off box = Except.error (PyError.nameError envName)) := by
  constructor
  · rcases e with ⟨base, ops⟩
    cases base with
    | inl n => simp [coll_index_sub, isIntBase]
    | inr s =>
      by_cases hv : v = 0
      · simp [coll_index_sub, isIntBase, hv]
      · simp [coll_index_sub, isIntBase, hv]
  · intro d pd off box
    rfl

/-! ### Claim C5: fresh-name policies of the printer and the compiler -/

/-- C5: evaluating both policies on the symbol sequence `x_1, x, x`.  The
printer's `new_name` assigns `x_1` to both the first and the third
symbol (its single bump of `x` lands on the already-taken `x_1` and is
recorded without a freshness check), so two distinct symbols print
identically; the compiler's `new_varname`, whose loop re-checks,
correctly produces `x_2` for the third. -/
theorem C5_printer_collision_bug :
    pprint_new_names [nameX1, nameX, nameX] = [nameX1, nameX, nameX1]
      ∧ ¬ List.Nodup (pprint_new_names [nameX1, nameX, nameX])
      ∧ new_varnames 100 [nameX1, nameX, nameX] = [nameX1, nameX, "x_2"]
      ∧ List.Nodup (new_varnames 100 [nameX1, nameX, nameX]) := by
  refine ⟨rfl, by decide, rfl, by decide⟩

/-! ### Claim C3: window struct synthesis -/

theorem winName_nodup : (allWinTriples.map winName).Nodup := by decide

/-- C3 counterexample: the synthesized struct for (f32, rank 2,
non-const) carries a `const int_fast32_t strides[2];` field, not the
`const int32_t strides[2];` field the claim asserts (and its name and
guard are otherwise as claimed). -/
theorem C3_counterexample :
    (window_struct ScalarTy.f32 2 false).name = "exo_win_2f32"
      ∧ strContains (window_struct ScalarTy.f32 2 false).definition specInt32Field = false
      ∧ strContains (window_struct ScalarTy.f32 2 false).definition fastInt32Field = true := by
  exact ⟨rfl, by decide, by decide⟩

theorem zip_filter_eq_select (ss : List String) (ws : List WAccess) :
    ((List.zip ss ws).filter (fun p => isIntervalW p.2)).map Prod.fst
      = select_intervals ss ws := by
  induction ss generalizing ws with
  | nil => cases ws <;> rfl
  | cons s ss ih =>
    cases ws with
    | nil => rfl
    | cons w ws =>
      cases w with
      | Interval lo hi =>
        have hcond : (fun (p : String × WAccess) => isIntervalW p.2) (s, WAccess.Interval lo hi)
            = true := rfl
        rw [List.zip_cons_cons, List.filter_cons]
        simp only [hcond, if_true, List.map_cons, select_intervals]
        rw [ih ws]
      | Point pt =>
        have hcond : (fun (p : String × WAccess) => isIntervalW p.2) (s, WAccess.Point pt)
            = false := rfl
        rw [List.zip_cons_cons, List.filter_cons]
        simp only [hcond, Bool.false_eq_true, if_false, select_intervals]
        exact ih ws

/-- C3 amended: window struct synthesis is as the claim states except
that the strides field is `const int_fast32_t strides[rank]` (not
`int32_t`): one struct per (type, rank, constness) triple with pairwise
distinct `exo_win_<rank><type>[c]` names (ranks 1..9), the `c` suffix
exactly for const structs, an `#ifndef` guard around a struct holding a
const data pointer and the strides array; and a `WindowExpr` compiles to
a struct literal whose data pointer comes from the memory's `window`
hook on the per-axis base offsets and whose strides are exactly the
rendered parent strides of the `Interval` axes, in original order. -/
theorem C3_window_struct_amended :
    (∀ p, p ∈ allWinTriples → ∀ q, q ∈ allWinTriples → winName p = winName q → p = q)
      ∧ (∀ t n, (window_struct t n true).name = (window_struct t n false).name ++ "c")
      ∧ (window_struct ScalarTy.f32 2 false).definition
          = "#ifndef EXO_WIN_2F32\n#define EXO_WIN_2F32\nstruct exo_win_2f32\x7b\n    float * const data;\n    const int_fast32_t strides[2];\n\x7d;\n#endif"
      ∧ (window_struct ScalarTy.f32 2 true).definition
          = "#ifndef EXO_WIN_2F32C\n#define EXO_WIN_2F32C\nstruct exo_win_2f32c\x7b\n    const float * const data;\n    const int_fast32_t strides[2];\n\x7d;\n#endif"
      ∧ (∀ ctx nm idx,
          (window_struct_fields ctx nm idx).2
            = String.intercalate ", "
                (select_intervals
                  ((get_strides ctx nm (ctx.envtyp nm)).map
                    (fun i => comp_cir (simplify_cir i) ctx.env 0))
                  idx))
      ∧ window_expr_literal (window_struct ScalarTy.f32 2 true).name
            (window_struct_fields ctxS5 symA idxS5).1
            (window_struct_fields ctxS5 symA idxS5).2
          = "(struct exo_win_2f32c)\x7b &A[0 * N + 4 * 1], \x7b N, 1 \x7d \x7d" := by
  refine ⟨List.inj_on_of_nodup_map winName_nodup, ?_, rfl, rfl, ?_, rfl⟩
  · intro t n
    simp [window_struct, _window_struct]
  · intro ctx nm idx
    show String.intercalate ", "
        (((List.zip
            ((get_strides ctx nm (ctx.envtyp nm)).map
              (fun i => comp_cir (simplify_cir i) ctx.env 0))
            idx).filter (fun p => isIntervalW p.2)).map Prod.fst)
      = _
    rw [zip_filter_eq_select]

/-- Witness for C3 at concrete triples: distinct triples with distinct
names, instantiating the injectivity conjunct. -/
theorem C3_window_struct_amended_witness :
    (ScalarTy.f32, 2, false) ∈ allWinTriples
      ∧ ((winName (ScalarTy.f32, 2, false) = winName (ScalarTy.i8, 1, true)
            → (ScalarTy.f32, (2 : Nat), false) = (ScalarTy.i8, (1 : Nat), true))) := by
  refine ⟨by decide, ?_⟩
  exact fun h =>
    C3_window_struct_amended.1 (ScalarTy.f32, 2, false) (by decide)
      (ScalarTy.i8, 1, true) (by decide) h

/-! ### Claim C4: delegation of Assign/Reduce/Read to memory hooks -/

/-- C4 counterexample: two memories that differ only in their `read` hook
produce the identical compiled read `b[0]` — the hook's output (the
sentinels, which differ) never appears: `comp_e` does not delegate reads
to the memory's `read` hook. -/
theorem C4_counterexample :
    comp_read ctxReadA symB [LExpr.Const 0] = Except.ok "b[0]"
      ∧ comp_read ctxReadB symB [LExpr.Const 0] = Except.ok "b[0]"
      ∧ (ctxReadA.mems symB).read probeL probeR ≠ (ctxReadB.mems symB).read probeL probeR := by
  refine ⟨by with_unfolding_all rfl, by with_unfolding_all rfl, by decide⟩

/-- C4 amended: `Assign` lowers to the target memory's `write` hook and
`Reduce` to its `reduce` hook applied to the computed lhs/rhs strings;
a read is compiled by the compiler itself — the memory's `read` hook is
never consulted (replacing it cannot change any compiled read) — after a
`can_read` check that raises `MemGenError` when the memory kind does not
declare `can_read`, except for the `CudaRmem` backdoor, which returns
the raw name with only a warning. -/
theorem C4_delegation_amended :
    (∀ ctx f nm idx, comp_read (override_read ctx f) nm idx = comp_read ctx nm idx)
      ∧ (∀ ctx nm idx, ltype_direct (ctx.envtyp nm) = false
          → (ctx.mems nm).is_cuda_rmem = false
          → (ctx.mems nm).can_read = false
          → comp_read ctx nm idx
              = Except.error (CompErr.memGenError nm (ctx.mems nm).name))
      ∧ (∀ ctx nm idx, ltype_direct (ctx.envtyp nm) = false
          → (ctx.mems nm).is_cuda_rmem = true
          → comp_read ctx nm idx = Except.ok (ctx.env nm))
      ∧ (∀ ctx nm idx rhs cast rs, comp_e ctx rhs 0 = Except.ok rs
          → comp_assign_reduce ctx false nm idx rhs cast
              = Except.ok ((ctx.mems nm).write (assign_lhs ctx nm idx) (apply_cast cast rs))
            ∧ comp_assign_reduce ctx true nm idx rhs cast
              = Except.ok ((ctx.mems nm).reduce (assign_lhs ctx nm idx) (apply_cast cast rs))) := by
  refine ⟨?_, ?_, ?_, ?_⟩
  · intro ctx f nm idx
    rfl
  · intro ctx nm idx h1 h2 h3
    simp [comp_read, h1, h2, h3]
  · intro ctx nm idx h1 h2
    simp [comp_read, h1, h2]
  · intro ctx nm idx rhs cast rs h
    unfold comp_assign_reduce
    rw [h]
    exact ⟨rfl, rfl⟩

/-- Witness for C4 at a concrete input: reading `b[0]` from a write-only
scratch memory raises `MemGenError`. -/
theorem C4_delegation_amended_witness :
    comp_read ctxNoRead symB [LExpr.Const 0]
      = Except.error (CompErr.memGenError symB memNoReadName) :=
  C4_delegation_amended.2.1 ctxNoRead symB [LExpr.Const 0] (by decide) (by decide) (by decide)

/-! ### Claim C7: the call-graph walk (`find_all_subprocs`) -/

theorem reachN_snoc (g : Proc → List Proc) :
    ∀ n x y z, ReachN g n x y → z ∈ g y → ReachN g (n + 1) x z := by
  intro n
  induction n with
  | zero =>
    intro x y z hxy hz
    cases hxy
    exact ⟨z, hz, rfl⟩
  | succ n ih =>
    intro x y z hxy hz
    obtain ⟨c, hc, hcy⟩ := hxy
    exact ⟨c, hc, ih c y z hcy hz⟩

theorem vchain_reach (g : Proc → List Proc) :
    ∀ visited p, VChain g visited p → ∀ c ∈ visited, ∃ n, ReachN g (n + 1) c p := by
  intro visited
  induction visited with
  | nil => intro p _ c hc; cases hc
  | cons a rest ih =>
    intro p hch c hc
    cases hch with
    | cons _ _ _ hpa hrest =>
      rcases List.mem_cons.mp hc with h | h
      · subst h
        exact ⟨0, p, hpa, rfl⟩
      · obtain ⟨n, hn⟩ := ih a hrest c h
        exact ⟨n + 1, reachN_snoc g _ c a p hn hpa⟩

mutual

theorem walk_err (g : Proc → List Proc) (fuel : Nat) (p : Proc) (visited : List Proc)
    (st : WalkSt) (c0 : Proc)
    (h : walk g fuel p visited st = Except.error (WalkErr.cycle c0))
    (hch : VChain g visited p) :
    ∃ m, ReachN g (m + 1) c0 c0 := by
  match fuel with
  | 0 => simp [walk] at h
  | fuel' + 1 =>
    rw [walk] at h
    by_cases hp : p ∈ st.seen
    · simp [hp] at h
    · simp only [hp, if_false] at h
      exact walkList_err g fuel' (g p) p visited _ c0 h (fun c hc => hc) hch
termination_by (fuel, 0)

theorem walkList_err (g : Proc → List Proc) (fuel : Nat) (cs : List Proc) (p : Proc)
    (visited : List Proc) (st : WalkSt) (c0 : Proc)
    (h : walkList g fuel cs p visited st = Except.error (WalkErr.cycle c0))
    (hcs : ∀ c ∈ cs, c ∈ g p)
    (hch : VChain g visited p) :
    ∃ m, ReachN g (m + 1) c0 c0 := by
  match cs with
  | [] => simp [walkList] at h
  | c :: cs' =>
    rw [walkList] at h
    by_cases hv : c ∈ visited
    · simp only [hv, if_true] at h
      have hc0 : c = c0 := by
        injection h with h2
        injection h2
      subst hc0
      obtain ⟨n, hn⟩ := vchain_reach g visited p hch c hv
      exact ⟨n + 1, reachN_snoc g _ c p c hn (hcs c (by simp))⟩
    · simp only [hv, if_false] at h
      cases hw : walk g fuel c (p :: visited) st with
      | error e =>
        rw [hw] at h
        have he : e = WalkErr.cycle c0 := by injection h
        subst he
        exact walk_err g fuel c (p :: visited) st c0 hw
          (VChain.cons p visited c (hcs c (by simp)) hch)
      | ok st2 =>
        rw [hw] at h
        exact walkList_err g fuel cs' p visited st2 c0 h
          (fun x hx => hcs x (by simp [hx])) hch
termination_by (fuel, cs.length + 1)

end

theorem reach_closed_at (g : Proc → List Proc) (S : List Proc) (visited : List Proc)
    (p : Proc) (hp : p ∈ S)
    (hch : ∀ c ∈ g p, c ∈ S ∧ c ∉ visited)
    (hcl : Closed g S (p :: visited)) :
    ∀ q, Reach g p q → q ∈ S := by
  intro q hq
  obtain ⟨n, hn⟩ := hq
  induction n using Nat.strong_induction_on generalizing q with
  | _ n ih =>
    match n, hn with
    | 0, hn =>
      exact hn ▸ hp
    | m + 1, hn =>
      obtain ⟨c, hc, hcq⟩ := hn
      obtain ⟨hcS, hcv⟩ := hch c hc
      rcases hcl c hcS with hin | hclo
      · rcases List.mem_cons.mp hin with he | hv
        · exact ih m (Nat.lt_succ_self m) q (he ▸ hcq)
        · exact absurd hv hcv
      · exact hclo q ⟨m, hcq⟩

mutual

theorem walk_ok (g : Proc → List Proc) (R : Proc → Prop)
    (hRs : ∀ a b, R a → b ∈ g a → R b)
    (fuel : Nat) (p : Proc) (visited : List Proc) (st st' : WalkSt)
    (h : walk g fuel p visited st = Except.ok st')
    (hRp : R p) (hinv : WInv R st) (hcl : Closed g st.seen visited) :
    st.seen ⊆ st'.seen ∧ p ∈ st'.seen ∧ WInv R st' ∧ Closed g st'.seen visited := by
  match fuel with
  | 0 => simp [walk] at h
  | fuel' + 1 =>
    rw [walk] at h
    by_cases hp : p ∈ st.seen
    · simp only [hp, if_true] at h
      have he : st = st' := by injection h
      subst he
      exact ⟨fun x hx => hx, hp, hinv, hcl⟩
    · simp only [hp, if_false] at h
      obtain ⟨hnd, hso, hout⟩ := hinv
      have hpout : p ∉ st.out := fun hx => hp ((hso p).mpr hx)
      have hinv1 : WInv R (WalkSt.mk (p :: st.seen) (st.out ++ [p])) := by
        refine ⟨?_, ?_, ?_⟩
        · rw [List.nodup_append]
          refine ⟨hnd, List.nodup_singleton p, ?_⟩
          intro a ha hb
          rw [List.mem_singleton] at hb
          subst hb
          exact hpout ha
        · intro x
          rw [List.mem_cons, List.mem_append, List.mem_singleton, hso x]
          exact or_comm
        · intro x hx
          rcases List.mem_append.mp hx with hx1 | hx2
          · exact hout x hx1
          · rw [List.mem_singleton] at hx2
            subst hx2
            exact hRp
      have hcl1 : Closed g (WalkSt.mk (p :: st.seen) (st.out ++ [p])).seen (p :: visited) := by
        intro s hs
        rcases List.mem_cons.mp hs with he | hseen
        · exact Or.inl (by rw [he]; exact List.mem_cons_self p visited)
        · rcases hcl s hseen with hv | hclo
          · exact Or.inl (List.mem_cons_of_mem _ hv)
          · exact Or.inr (fun q hq => List.mem_cons_of_mem _ (hclo q hq))
      obtain ⟨hsub1, hch, hinv', hcl'⟩ :=
        walkList_ok g R hRs fuel' (g p) p visited _ st' h (fun c hc => hc) hRp hinv1 hcl1
      have hsub : st.seen ⊆ st'.seen := fun x hx => hsub1 (List.mem_cons_of_mem _ hx)
      have hpS : p ∈ st'.seen := hsub1 (List.mem_cons_self _ _)
      refine ⟨hsub, hpS, hinv', ?_⟩
      intro s hs
      rcases hcl' s hs with hv | hclo
      · rcases List.mem_cons.mp hv with he | hv'
        · refine Or.inr ?_
          rw [he]
          exact reach_closed_at g st'.seen visited p hpS (fun c hc => hch c hc) hcl'
        · exact Or.inl hv'
      · exact Or.inr hclo
termination_by (fuel, 0)

theorem walkList_ok (g : Proc → List Proc) (R : Proc → Prop)
    (hRs : ∀ a b, R a → b ∈ g a → R b)
    (fuel : Nat) (cs : List Proc) (p : Proc) (visited : List Proc) (st st' : WalkSt)
    (h : walkList g fuel cs p visited st = Except.ok st')
    (hcs : ∀ c ∈ cs, c ∈ g p)
    (hRp : R p) (hinv : WInv R st) (hcl : Closed g st.seen (p :: visited)) :
    st.seen ⊆ st'.seen ∧ (∀ c ∈ cs, c ∈ st'.seen ∧ c ∉ visited)
      ∧ WInv R st' ∧ Closed g st'.seen (p :: visited) := by
  match cs with
  | [] =>
    have he : st = st' := by
      rw [walkList] at h
      injection h
    subst he
    refine ⟨fun x hx => hx, ?_, hinv, hcl⟩
    intro c hc
    cases hc
  | c :: cs' =>
    rw [walkList] at h
    by_cases hv : c ∈ visited
    · simp [hv] at h
    · simp only [hv, if_false] at h
      cases hw : walk g fuel c (p :: visited) st with
      | error e => rw [hw] at h; cases h
      | ok st2 =>
        rw [hw] at h
        obtain ⟨hsub2, hcS2, hinv2, hcl2⟩ :=
          walk_ok g R hRs fuel c (p :: visited) st st2 hw
            (hRs p c hRp (hcs c (List.mem_cons_self c cs'))) hinv hcl
        obtain ⟨hsub', hc', hinv', hcl'⟩ :=
          walkList_ok g R hRs fuel cs' p visited st2 st' h
            (fun x hx => hcs x (List.mem_cons_of_mem _ hx)) hRp hinv2 hcl2
        refine ⟨fun x hx => hsub' (hsub2 hx), ?_, hinv', hcl'⟩
        intro x hx
        rcases List.mem_cons.mp hx with he | hx'
        · subst he
          exact ⟨hsub' hcS2, hv⟩
        · exact hc' x hx'
termination_by (fuel, cs.length + 1)

end

theorem walkRoots_ok (g : Proc → List Proc) (R : Proc → Prop)
    (hRs : ∀ a b, R a → b ∈ g a → R b) (fuel : Nat) :
    ∀ (roots : List Proc) (st st' : WalkSt),
      walkRoots g fuel roots st = Except.ok st' →
      (∀ r ∈ roots, R r) → WInv R st → Closed g st.seen [] →
      st.seen ⊆ st'.seen ∧ (∀ r ∈ roots, r ∈ st'.seen) ∧ WInv R st'
        ∧ Closed g st'.seen [] := by
  intro roots
  induction roots with
  | nil =>
    intro st st' h _ hinv hcl
    have he : st = st' := by
      rw [walkRoots] at h
      injection h
    subst he
    refine ⟨fun x hx => hx, ?_, hinv, hcl⟩
    intro r hr
    cases hr
  | cons r rs ih =>
    intro st st' h hroots hinv hcl
    rw [walkRoots] at h
    cases hw : walk g fuel r [] st with
    | error e => rw [hw] at h; cases h
    | ok st2 =>
      rw [hw] at h
      obtain ⟨hsub2, hrS, hinv2, hcl2⟩ :=
        walk_ok g R hRs fuel r [] st st2 hw (hroots r (List.mem_cons_self r rs)) hinv hcl
      obtain ⟨hsub', hr', hinv', hcl'⟩ :=
        ih st2 st' h (fun x hx => hroots x (List.mem_cons_of_mem _ hx)) hinv2 hcl2
      refine ⟨fun x hx => hsub' (hsub2 hx), ?_, hinv', hcl'⟩
      intro x hx
      rcases List.mem_cons.mp hx with he | hx'
      · subst he
        exact hsub' hrS
      · exact hr' x hx'

theorem walkRoots_err (g : Proc → List Proc) (fuel : Nat) :
    ∀ (roots : List Proc) (st : WalkSt) (c0 : Proc),
      walkRoots g fuel roots st = Except.error (WalkErr.cycle c0) →
      ∃ m, ReachN g (m + 1) c0 c0 := by
  intro roots
  induction roots with
  | nil =>
    intro st c0 h
    rw [walkRoots] at h
    cases h
  | cons r rs ih =>
    intro st c0 h
    rw [walkRoots] at h
    cases hw : walk g fuel r [] st with
    | error e =>
      rw [hw] at h
      have he : e = WalkErr.cycle c0 := by injection h
      subst he
      exact walk_err g fuel r [] st c0 hw (VChain.nil r)
    | ok st2 =>
      rw [hw] at h
      exact ih st2 c0 h

theorem find_all_subprocs_ok (g : Proc → List Proc) (fuel : Nat) (roots out : List Proc)
    (h : find_all_subprocs g fuel roots = Except.ok out) :
    out.Nodup ∧ ∀ q, q ∈ out ↔ ReachFrom g roots q := by
  unfold find_all_subprocs at h
  cases hw : walkRoots g fuel roots (WalkSt.mk [] []) with
  | error e => rw [hw] at h; cases h
  | ok st =>
    rw [hw] at h
    have hout : out = st.out.reverse := by
      injection h with h2
      exact h2.symm
    subst hout
    have hRs : ∀ a b, ReachFrom g roots a → b ∈ g a → ReachFrom g roots b := by
      intro a b ⟨r, hr, n, hn⟩ hb
      exact ⟨r, hr, n + 1, reachN_snoc g n r a b hn hb⟩
    obtain ⟨_, hroots, ⟨hnd, hso, hR⟩, hcl⟩ :=
      walkRoots_ok g (ReachFrom g roots) hRs fuel roots (WalkSt.mk [] []) st hw
        (fun r hr => ⟨r, hr, 0, rfl⟩)
        ⟨List.nodup_nil, fun x => Iff.rfl, fun x hx => absurd hx (List.not_mem_nil x)⟩
        (fun s hs => absurd hs (List.not_mem_nil s))
    refine ⟨List.nodup_reverse.mpr hnd, ?_⟩
    intro q
    rw [List.mem_reverse]
    constructor
    · exact fun hq => hR q hq
    · intro hq
      obtain ⟨r, hr, hreach⟩ := hq
      have hrS : r ∈ st.seen := hroots r hr
      rcases hcl r hrS with hv | hclo
      · cases hv
      · exact (hso q).mp (hclo q hreach)

theorem find_all_subprocs_err (g : Proc → List Proc) (fuel : Nat) (roots : List Proc) (c : Proc)
    (h : find_all_subprocs g fuel roots = Except.error (WalkErr.cycle c)) :
    ∃ m, ReachN g (m + 1) c c := by
  unfold find_all_subprocs at h
  cases hw : walkRoots g fuel roots (WalkSt.mk [] []) with
  | error e =>
    rw [hw] at h
    have he : e = WalkErr.cycle c := by injection h
    subst he
    exact walkRoots_err g fuel roots _ c hw
  | ok st => rw [hw] at h; cases h

/-- C7 counterexample: on the acyclic graph `g0` with root 0, the walk
returns `[1, 2, 0]`, in which the caller 1 precedes its callee 2 --
callees do not precede callers; and the self-loop `gSelf` (a reachable
cycle) is returned without any error instead of being rejected. -/
theorem C7_counterexample :
    find_all_subprocs g0 10 [0] = Except.ok [1, 2, 0]
      ∧ (2 : Proc) ∈ g0 1
      ∧ callees_precede g0 [1, 2, 0] = false
      ∧ find_all_subprocs gSelf 10 [5] = Except.ok [5]
      ∧ (5 : Proc) ∈ gSelf 5 := by
  refine ⟨by with_unfolding_all rfl, by decide, by decide, by with_unfolding_all rfl, by decide⟩

/-- C7 amended: whenever the transitive-closure walk returns, the result
lists each procedure reachable from the input exactly once (no
duplicates, membership exactly the reachable set) -- but neither in an
order where callees precede callers, nor rejecting self-loops; and
whenever it raises a cycle error, the procedure named by the error lies
on a call cycle. -/
theorem C7_find_all_subprocs_amended :
    (∀ (g : Proc → List Proc) (fuel : Nat) (roots out : List Proc),
        find_all_subprocs g fuel roots = Except.ok out →
        out.Nodup ∧ ∀ q, q ∈ out ↔ ReachFrom g roots q)
      ∧ (∀ (g : Proc → List Proc) (fuel : Nat) (roots : List Proc) (c : Proc),
          find_all_subprocs g fuel roots = Except.error (WalkErr.cycle c) →
          ∃ m, ReachN g (m + 1) c c) :=
  ⟨find_all_subprocs_ok, find_all_subprocs_err⟩

/-- Witness for C7 at the concrete graph `g0`: the returned list `[1, 2, 0]`
has no duplicates and contains 2, which is reachable from the root 0. -/
theorem C7_find_all_subprocs_amended_witness :
    ([1, 2, 0] : List Proc).Nodup
      ∧ ((2 : Proc) ∈ ([1, 2, 0] : List Proc) ↔ ReachFrom g0 [0] 2) := by
  have h := C7_find_all_subprocs_amended.1 g0 10 [0] [1, 2, 0] (by with_unfolding_all rfl)
  exact ⟨h.1, h.2 2⟩
